import Mathlib

/-!
# Verification of the transmark BBCode tokenizer and parser

A shallow embedding of `src/ast/bbcode/tokenizer.rs` and
`src/ast/bbcode/parser.rs` (plus the pieces of `src/ast/builder.rs` and
`src/markdown_text.rs` they call), together with theorems settling the
specification claims about them.

Strings are embedded as `List Char`; byte ranges of the Rust code are
character-index ranges here (all inputs exercised by the claims are ASCII,
where the two coincide).  The `regex` crate's Unicode character classes
(`\w`, `\s`) are embedded by their ASCII parts, which is all the tag
grammar distinguishes.
-/

namespace Transmark

abbrev Str := List Char

/-- Convert a Lean string literal to the embedded string type. -/
def str (s : String) : Str := s.toList

/-- Embeds `std::ops::Range<usize>`: a half-open index range `start..stop`. -/
structure Span where
  start : Nat
  stop : Nat
deriving DecidableEq, Repr

/-! ## Tokenizer (`tokenizer.rs`)

The tag regex (`tag_regex`, tokenizer.rs:22-38) is, with `(?ix)`:

    \[( (?P<param> (?P<tag>\w+) (=[\S&&[^\]]]+)? (\s+ [a-z]+ = "[^"]+")* ) | /(?P<endTag>\w+) )]

Every quantified piece of the pattern is over a character class that
excludes the character required next, so the regex engine's
leftmost-first match is equal to the greedy scanner embedded below.
-/

/-- Regex `\w` (ASCII part): word characters. -/
def isWordChar (c : Char) : Bool := c.isAlphanum || c = '_'

/-- Regex `\s` (ASCII part): whitespace. -/
def isSpaceChar (c : Char) : Bool :=
  c = ' ' || c = '\t' || c = '\n' || c = '\r' || c = '\x0b' || c = '\x0c'

/-- Regex `[a-z]` under the case-insensitive flag `i`. -/
def isKeyChar (c : Char) : Bool := ('a' ≤ c && c ≤ 'z') || ('A' ≤ c && c ≤ 'Z')

/-- Regex `[\S&&[^\]]]`: the character class of an unkeyed parameter value. -/
def isValChar (c : Char) : Bool := !(isSpaceChar c) && c != ']'

/-- Length consumed by the optional unkeyed value group `(=[\S&&[^\]]]+)?`
(0 when the group does not match). -/
def valRun (cs : Str) : Nat :=
  match cs with
  | '=' :: r =>
    let v := r.takeWhile isValChar
    if v.isEmpty then 0 else v.length + 1
  | _ => 0

/-- Length consumed by one keyed-parameter group `\s+ [a-z]+ = "[^"]+"`,
or `none` when it does not match here. -/
def pairRun (cs : Str) : Option Nat :=
  let ws := cs.takeWhile isSpaceChar
  if ws.isEmpty then none else
  let r1 := cs.drop ws.length
  let key := r1.takeWhile isKeyChar
  if key.isEmpty then none else
  match r1.drop key.length with
  | '=' :: '"' :: r2 =>
    let v := r2.takeWhile (fun c => c != '"')
    if v.isEmpty then none else
    match r2.drop v.length with
    | '"' :: _ => some (ws.length + key.length + 2 + v.length + 1)
    | _ => none
  | _ => none

/-- Length consumed by `(\s+ [a-z]+ = "[^"]+")*` (greedy).  The fuel is
only a termination device: each pair consumes at least one character, so
`cs.length` rounds of fuel can never run out before the pairs do. -/
def pairsRunAux : Nat → Str → Nat
  | 0, _ => 0
  | fuel+1, cs =>
    match pairRun cs with
    | some n => n + pairsRunAux fuel (cs.drop n)
    | none => 0

def pairsRun (cs : Str) : Nat := pairsRunAux cs.length cs

/-- Match of the start-tag branch `(?P<tag>\w+)(=...)?(\s+...)*` followed by
`]`, applied just after the `[`.  Returns the lengths of the `tag` and
`param` capture groups. -/
def startTagMatch (cs : Str) : Option (Nat × Nat) :=
  let name := cs.takeWhile isWordChar
  if name.isEmpty then none else
  let vl := valRun (cs.drop name.length)
  let pl := pairsRun (cs.drop (name.length + vl))
  let paramLen := name.length + vl + pl
  match cs.drop paramLen with
  | ']' :: _ => some (name.length, paramLen)
  | _ => none

/-- Match of the end-tag branch `/(?P<endTag>\w+)` followed by `]`, applied
just after the `[`.  Returns the length of the `endTag` capture group. -/
def endTagMatch (cs : Str) : Option Nat :=
  match cs with
  | '/' :: r =>
    let name := r.takeWhile isWordChar
    if name.isEmpty then none else
    match r.drop name.length with
    | ']' :: _ => some name.length
    | _ => none
  | _ => none

/-- Shape of one whole-regex match: lengths of its capture groups. -/
inductive TagMatch where
  | startTag (nameLen paramLen : Nat)
  | endTag (nameLen : Nat)
deriving DecidableEq, Repr

/-- Whole-regex match attempted at the head of `cs`: `[` then the `param`
branch, else the `/endTag` branch (the regex alternation order), then `]`. -/
def tagMatchAt (cs : Str) : Option TagMatch :=
  match cs with
  | '[' :: r =>
    match startTagMatch r with
    | some (nl, pl) => some (.startTag nl pl)
    | Option.none =>
      match endTagMatch r with
      | some nl => some (.endTag nl)
      | Option.none => Option.none
  | _ => Option.none

/-- Total length of the whole match (group 0), brackets included. -/
def TagMatch.len : TagMatch → Nat
  | .startTag _ pl => pl + 2
  | .endTag nl => nl + 3

/-- Leftmost match at position `≥ q`: the scan the regex engine performs
for the next match of `captures_iter`.  `cs` is the input suffix starting
at `q`. -/
def findFrom (cs : Str) (q : Nat) : Option (Nat × TagMatch) :=
  match tagMatchAt cs with
  | some m => some (q, m)
  | Option.none =>
    match cs with
    | [] => Option.none
    | _ :: t => findFrom t (q+1)

/-- Embeds `&input[a..b]` for `a ≤ b`. -/
def slice (input : Str) (a b : Nat) : Str := (input.drop a).take (b - a)

/-- Embeds `Fragment` (tokenizer.rs:40-100): `Text` and `EndTag` hold a
`TextFragment` (string plus range); `StartTag` holds a `Tag` with the
`name` and `param` text fragments. -/
inductive Fragment where
  | text (value : Str) (range : Span)
  | startTag (name : Str) (nameRange : Span) (param : Str) (paramRange : Span)
  | endTag (value : Str) (range : Span)
deriving DecidableEq, Repr

/-- Build the fragment for a regex match at position `q`
(`Fragment::new_start_tag` / `new_end_tag`): the `tag`/`param` groups start
at `q+1`, the `endTag` group at `q+2`, and the stored strings are the
input slices at those ranges, exactly as the `Match` captures are. -/
def tagFragment (input : Str) (q : Nat) : TagMatch → Fragment
  | .startTag nl pl =>
    .startTag (slice input (q+1) (q+1+nl)) ⟨q+1, q+1+nl⟩
      (slice input (q+1) (q+1+pl)) ⟨q+1, q+1+pl⟩
  | .endTag nl => .endTag (slice input (q+2) (q+2+nl)) ⟨q+2, q+2+nl⟩

/-- The fragment stream (`FragmentStream::next_text` / `next_tag` /
`next_fragment`, tokenizer.rs:123-186), materialised as a list.  At cursor
`pos`: fetch the next match; emit the text `pos..matchStart` when it is
nonempty, then the match itself as a tag fragment, then continue from the
match end; with no match left, emit the trailing text `pos..len` when
nonempty and stop.  The fuel only bounds the number of matches; a match
consumes at least three characters, so `input.length + 1` rounds never run
out first. -/
def fragsAux (input : Str) : Nat → Nat → List Fragment
  | 0, _ => []
  | fuel+1, pos =>
    match findFrom (input.drop pos) pos with
    | some (q, m) =>
      let tagged := tagFragment input q m :: fragsAux input fuel (q + m.len)
      if pos < q then .text (slice input pos q) ⟨pos, q⟩ :: tagged else tagged
    | Option.none =>
      if pos < input.length then [.text (slice input pos input.length) ⟨pos, input.length⟩] else []

/-- Embeds `split_fragments` (tokenizer.rs:102-104). -/
def split_fragments (input : Str) : List Fragment := fragsAux input (input.length + 1) 0

/-! ## Parameter splitting and the intermediate node model (`parser.rs`) -/

/-- Embeds `ErrorKind` (parser.rs:23-31). -/
inductive ErrorKind where
  | unknownTag
  | unopenedTag
  | unclosedTag
  | unexpectedTag (name : Str) (range : Span)
  | missingParam (name : Str)
  | missingInner
deriving DecidableEq, Repr

/-- Embeds `Error` (parser.rs:52-57). -/
structure Error where
  value : Str
  range : Span
  kind : ErrorKind
deriving DecidableEq, Repr

/-- Embeds `str::split(sep)`: `n` separators yield `n+1` pieces (empty pieces kept). -/
def splitOn (sep : Char) : Str → List Str
  | [] => [[]]
  | c :: t =>
    if c = sep then [] :: splitOn sep t
    else
      match splitOn sep t with
      | h :: r => (c :: h) :: r
      | [] => [[c]]

/-- Embeds `str::split_once(sep)`: split at the first separator, if any. -/
def splitOnce (sep : Char) : Str → Option (Str × Str)
  | [] => Option.none
  | c :: t =>
    if c = sep then some ([], t)
    else (splitOnce sep t).map (fun ab => (c :: ab.1, ab.2))

/-- Embeds `v.strip_prefix('"')?.strip_suffix('"')?` from `NodeTag::split`. -/
def stripQuotes (v : Str) : Option Str :=
  match v with
  | '"' :: t =>
    match t.getLast? with
    | some '"' => some t.dropLast
    | _ => Option.none
  | _ => Option.none

/-- Embeds `HashMap::insert`: replace the value of an existing key, else add the
entry.  (The `HashMap<&str, &str>` of the source is embedded as an
association list; its iteration order is modelled as insertion order,
which no claim depends on.) -/
def insertP (m : List (Str × Str)) (k v : Str) : List (Str × Str) :=
  match m with
  | [] => [(k, v)]
  | (k', v') :: t => if k' = k then (k, v) :: t else (k', v') :: insertP t k v

/-- Embeds `HashMap::get`. -/
def lookupP (m : List (Str × Str)) (k : Str) : Option Str :=
  match m with
  | [] => Option.none
  | (k', v') :: t => if k' = k then some v' else lookupP t k

/-- The removal part of `HashMap::remove`. -/
def eraseP (m : List (Str × Str)) (k : Str) : List (Str × Str) :=
  match m with
  | [] => []
  | (k', v') :: t => if k' = k then t else (k', v') :: eraseP t k

/-- Embeds `NodeTag::split` (parser.rs:163-177): split the raw parameter string on
single spaces, drop empty pieces, keep only pieces of the form
`key=` + `"value"` (the value must carry both double quotes), and collect
into a map (later duplicates of a key overwrite earlier ones). -/
def NodeTag.split (param : Str) : List (Str × Str) :=
  (((splitOn ' ' param).filter (fun p => !p.isEmpty)).filterMap
    (fun pair =>
      (splitOnce '=' pair).bind
        (fun kv => (stripQuotes kv.2).map (fun v => (kv.1, v))))).foldl
    (fun m kv => insertP m kv.1 kv.2) []

/-- Embeds `NodeTag` (parser.rs:131-137). -/
structure NodeTag where
  name : Str
  name_range : Span
  params : List (Str × Str)
  param_range : Span
deriving DecidableEq, Repr

mutual
/-- Embeds `Inner` (parser.rs:71-77). -/
inductive Inner where
  | none
  | text (value : Str)
  | tree (nodes : List Node)

/-- Embeds `Node` (parser.rs:182-186). -/
inductive Node where
  | mk (tag : Option NodeTag) (inner : Inner)
end

def Node.tag : Node → Option NodeTag
  | .mk t _ => t

def Node.inner : Node → Inner
  | .mk _ i => i

/-- Embeds `Node::text` (parser.rs:196-198). -/
def Node.text (value : Str) : Node := .mk Option.none (.text value)

/-- Embeds `Node::root` (parser.rs:200-202); `Vec::with_capacity(8)` is the empty list. -/
def Node.root : Node := .mk Option.none (.tree [])

/-- Embeds `Node::put_text` (parser.rs:204-220), by its action on `self.inner`:
empty content becomes a single text leaf; a second piece of text upgrades
to a list of two text leaves; a list gets the text leaf appended.  (The
source's upgrade branch builds the two-element vector this way; its
`Vec::new()`/`push` spelling does not change the contents.) -/
def Inner.put_text : Inner → Str → Inner
  | .none, v => .text v
  | .text existing, v => .tree [Node.text existing, Node.text v]
  | .tree t, v => .tree (t ++ [Node.text v])

/-- One open tag of `Node::parse`: the `Node` a recursive `parse` call is
filling in, whose `tag` is always `Some` (only the root node has none). -/
structure Frame where
  tag : NodeTag
  inner : Inner

def Frame.put_text (f : Frame) (v : Str) : Frame := { f with inner := f.inner.put_text v }

/-- Embeds `NodeTag::from_fragment` (parser.rs:140-161) applied to a `StartTag`
fragment's fields. -/
def Frame.ofStart (n : Str) (nr : Span) (p : Str) (pr : Span) : Frame :=
  ⟨⟨n, nr, NodeTag.split p, pr⟩, .none⟩

/-- Embeds `Node::parse` (parser.rs:222-260), with the recursion over open tags
made an explicit stack of frames (head = innermost open tag, the root's
`Inner` kept separately since the root is the only frame without a tag):

* `Text` fragment: `put_text` into the current (top, else root) frame;
* `StartTag`: push a fresh frame (`Self::tag(tag)` then its `parse` call);
* `EndTag` equal to the top frame's tag name: that frame's loop `break`s
  and its `parse` returns — the stack is popped.  The popped node is
  **discarded**: the source's `fragments = Self::tag(tag).parse(fragments)?`
  keeps only the returned stream and drops the completed child node, so
  nothing is ever appended to the parent's content;
* `EndTag` with a different name while a tag is open: `UnclosedTag`,
  reporting the open tag's name and name range;
* `EndTag` at the root (no open tag): `UnopenedTag`, reporting the end
  tag's text and range;
* end of stream: every frame's `while` loop simply ends and every level
  returns `Ok`, open tags included — the root node is the result. -/
def parse_sm (rootInner : Inner) (frames : List Frame) (fs : List Fragment) : Except Error Node :=
  match fs with
  | [] => .ok (.mk Option.none rootInner)
  | .text v _ :: rest =>
    match frames with
    | [] => parse_sm (rootInner.put_text v) [] rest
    | fr :: frs => parse_sm rootInner (fr.put_text v :: frs) rest
  | .startTag n nr p pr :: rest =>
    parse_sm rootInner (Frame.ofStart n nr p pr :: frames) rest
  | .endTag v r :: rest =>
    match frames with
    | [] => .error ⟨v, r, .unopenedTag⟩
    | fr :: frs =>
      if v = fr.tag.name then parse_sm rootInner frs rest
      else .error ⟨fr.tag.name, fr.tag.name_range, .unclosedTag⟩

/-- The parse entry point: `Node::root().parse(split_fragments(input))`,
returning the root node. -/
def parse (input : Str) : Except Error Node :=
  parse_sm (.tree []) [] (split_fragments input)

/-! ## The Markdown escape (`markdown_text.rs`)

The `fancy_regex` pattern replaced by `\$0` in `escape_markdown` is

    #{1,6}|[=-]{2,}|[*_]+|(?<=\d)\.|(?<=^|\s)[-+>]|~{2,}… (see source)

with no flags, so `^`/`$` are text boundaries and `.` excludes newlines.
Alternatives are tried left to right at each position; every quantified
class excludes the character required next except `.*` in the final
HTML-tag alternative, whose greedy backtracking is the last `>` on the
line.  The scanner below reproduces that match-by-match. -/

/-- Tests the lookbehind `(?<=^|\s)`: at the start of the text or after
whitespace. -/
def afterBreak (prev : Option Char) : Bool :=
  match prev with
  | Option.none => true
  | some c => isSpaceChar c

/-- Index of the last element satisfying `p`, if any. -/
def lastIdxOf (p : Char → Bool) : Str → Option Nat
  | [] => Option.none
  | c :: t =>
    match lastIdxOf p t with
    | some j => some (j + 1)
    | Option.none => if p c then some 0 else Option.none

/-- Length of the escape-pattern match starting exactly here, if any;
`prev` is the previous character of the original text (for the
lookbehinds). -/
def mdMatchLen (prev : Option Char) (cs : Str) : Option Nat :=
  match cs with
  | [] => Option.none
  | c :: t =>
    if c = '#' then some (min (cs.takeWhile (· = '#')).length 6)
    else if c = '=' ∨ c = '-' then
      let r := cs.takeWhile (fun x => x = '=' || x = '-')
      if 2 ≤ r.length then some r.length
      else if c = '-' ∧ afterBreak prev then some 1 else Option.none
    else if c = '*' ∨ c = '_' then
      some (cs.takeWhile (fun x => x = '*' || x = '_')).length
    else if c = '.' then
      if (prev.map Char.isDigit).getD false then some 1 else Option.none
    else if c = '+' ∨ c = '>' then
      if afterBreak prev then some 1 else Option.none
    else if c = '~' then
      match t with
      | '~' :: _ => some 2
      | _ => Option.none
    else if c = '`' then some (min (cs.takeWhile (· = '`')).length 3)
    else if c = '!' then
      match t with
      | '[' :: _ => some 2
      | _ => Option.none
    else if c = '[' then some 1
    else if c = '<' then
      match lastIdxOf (· = '>') (cs.takeWhile (fun x => x != '\n')) with
      | some j => if 1 ≤ j then some (j + 1) else Option.none
      | Option.none => Option.none
    else Option.none

/-- The `replace_all` scan: at each position, prepend `\` to a match of the
pattern and resume after it, else copy one character.  Every match has
positive length, so `text.length + 1` rounds of fuel never run out. -/
def escAux : Nat → Option Char → Str → Str
  | 0, _, cs => cs
  | fuel+1, prev, cs =>
    match mdMatchLen prev cs with
    | some L => '\\' :: (cs.take L ++ escAux fuel (cs.take L).getLast? (cs.drop L))
    | Option.none =>
      match cs with
      | [] => []
      | c :: t => c :: escAux fuel (some c) t

/-- Embeds `escape_markdown` (markdown_text.rs). -/
def escape_markdown (text : Str) : Str := escAux (text.length + 1) Option.none text

/-! ## The semantic build (`Node::build`, parser.rs:262-574)

`Node::build` translates a finished intermediate node into calls on the
generic `NodeBuilder<N : BlockNode>` of `src/ast/builder.rs`.  For a
block node the builder only ever appends children, so a builder is
embedded as the list of `mdast`-like children built so far (`MNode`
mirrors the `markdown::mdast` node kinds the dispatch produces, with the
fields the builder methods set).

The serialisation of a finished subtree back to Markdown text
(`IntoMarkdownText`, used by `NodeBuilder::<Html>::build_value` for the
generated inline-HTML nodes) is an external collaborator of this core
(spec §1); it is a parameter `render` of the build functions here.

Rust-side effects with no `Except`-style value are embedded explicitly:

* `BRes.crashed` — a panic: the `todo!()` arms (`table`, `td`, `th`,
  `tr`, the list-item loop), `Option::unwrap` on `None` in
  `get_inner_text`, and the out-of-bounds `[3..]` slice in `build_list`;
* `BRes.noFuel` — exhaustion of the recursion fuel.  The `"b"` and `"s"`
  arms call `self.build` (not `self.inner.build`) inside the freshly
  opened child builder, re-dispatching on the same node forever, so on
  those nodes the source recursion does not terminate and the embedding
  returns `noFuel` at every fuel. -/

inductive MNode where
  | text (value : Str)
  | strong (children : List MNode)
  | emphasis (children : List MNode)
  | delete (children : List MNode)
  | html (value : Str)
  | code (value : Str) (lang : Option Str)
  | inlineCode (value : Str)
  | link (url : Str) (title : Option Str) (children : List MNode)
  | image (url : Str) (alt : Str) (title : Option Str)
  | blockQuote (children : List MNode)
  | list (ordered : Bool) (start : Option Nat) (spread : Bool) (children : List MNode)

/-- Outcome of running builder code: a value, a returned `Error`, a Rust
panic, or fuel exhaustion (see the section comment). -/
inductive BRes (α : Type) where
  | ok (a : α)
  | error (e : Error)
  | crashed
  | noFuel

def BRes.bind : BRes α → (α → BRes β) → BRes β
  | .ok a, f => f a
  | .error e, _ => .error e
  | .crashed, _ => .crashed
  | .noFuel, _ => .noFuel

instance : Monad BRes where
  pure := BRes.ok
  bind := BRes.bind

/-- Embeds `NodeBuilder::<Html>::build_value` (builder.rs:52-89): the
generated string `<tag k1="v1" …>inner</tag>\n`.  (`HashMap` iteration
order is embedded as the association-list order; the spans built by the
dispatch carry at most one key.) -/
def htmlValue (tag : Str) (params : List (Str × Str)) (innerText : Str) : Str :=
  ('<' :: tag) ++
  (params.foldl (fun v kv => v ++ (' ' :: kv.1) ++ ('=' :: '"' :: kv.2) ++ ['"']) []) ++
  ('>' :: innerText) ++ ('<' :: '/' :: tag) ++ ['>', '\n']

/-- Embeds `Node::get_inner_text` (parser.rs:396-427), as a function of
`self.tag` and the examined `inner`: empty content is `""`, a text leaf is
itself, and structured content is an `UnexpectedTag` error naming the
outer tag and the first tagged child — via two `unwrap`s that panic when
`self` has no tag or the tree holds no tagged child. -/
def Node.get_inner_text (tag : Option NodeTag) (inner : Inner) : BRes Str :=
  match inner with
  | .none => .ok []
  | .text v => .ok v
  | .tree value =>
    match tag with
    | Option.none => .crashed
    | some t =>
      match value.findSome? Node.tag with
      | Option.none => .crashed
      | some u => .error ⟨t.name, t.name_range, .unexpectedTag u.name u.name_range⟩

/-- Embeds `Node::build_code` (parser.rs:463-473): inner text as the code
value, the `code`-keyed parameter (the unkeyed value's intended home) as
the language. -/
def Node.build_code (tag : Option NodeTag) (inner : Inner)
    (params : List (Str × Str)) (b : List MNode) : BRes (List MNode) :=
  (Node.get_inner_text tag inner).bind fun code =>
    .ok (b ++ [.code code (lookupP params (str "code"))])

/-- Embeds `Node::build_url` (parser.rs:475-492): a keyed `url` parameter
is the target (inner text then the title); otherwise the inner text is the
target and there is no title. -/
def Node.build_url (tag : Option NodeTag) (inner : Inner)
    (params : List (Str × Str)) (map_url : Str → Str) (b : List MNode) : BRes (List MNode) :=
  (Node.get_inner_text tag inner).bind fun innerText =>
    match lookupP params (str "url") with
    | some u => .ok (b ++ [.link (map_url u) (some innerText) []])
    | Option.none => .ok (b ++ [.link (map_url innerText) Option.none []])

/-- Embeds `Node::build_img` (parser.rs:494-539): dimensions come from the
`img`-keyed unkeyed value split at `x`, else from the `width`/`height`
pair; with dimensions the image is an HTML `<img>` string carried as a
link title, otherwise a plain image node with alt/title. -/
def Node.build_img (tag : Option NodeTag) (inner : Inner)
    (params : List (Str × Str)) (render : List MNode → Str) (b : List MNode) : BRes (List MNode) :=
  (Node.get_inner_text tag inner).bind fun url =>
    let alt := lookupP params (str "alt")
    let title := lookupP params (str "title")
    let width := lookupP params (str "width")
    let height := lookupP params (str "height")
    let dim := ((lookupP params (str "img")).bind (splitOnce 'x')).orElse fun _ =>
      (width.bind fun w => height.map fun h => (w, h)).orElse fun _ =>
        height.bind fun h => width.map fun w => (w, h)
    match dim with
    | some wh =>
      let params2 :=
        insertP (insertP (insertP (eraseP params (str "img")) (str "width") wh.1)
          (str "height") wh.2) (str "src") url
      .ok (b ++ [.link url (some (htmlValue (str "img") params2 (render []))) []])
    | Option.none => .ok (b ++ [.image url (alt.getD []) title])

/-- Embeds `str::trim_start` (ASCII whitespace). -/
def trimStart (cs : Str) : Str := cs.dropWhile isSpaceChar

/-- Embeds `str::trim` (ASCII whitespace). -/
def trim (cs : Str) : Str := ((trimStart cs).reverse.dropWhile isSpaceChar).reverse

/-- The single possible match of the list-item shorthand regex
`^\s*\[*].*$` (parser.rs:553): anchored at both ends with no `m` flag, it
matches the whole string or nothing — whitespace, then literal `[`s (the
`\[*]` spelling quantifies the bracket), then `]`, then a newline-free
rest. -/
def liMatch (v : Str) : Option Str :=
  let r1 := v.drop (v.takeWhile isSpaceChar).length
  match r1.drop (r1.takeWhile (· = '[')).length with
  | ']' :: rest => if rest.all (fun c => c != '\n') then some v else Option.none
  | _ => Option.none

/-- Embeds `Node::build_list` (parser.rs:541-574): a `List` node is
appended (ordered flag, start `1` when ordered, not spread).  Text content
is scanned with the shorthand regex and the match is trimmed and sliced
from byte 3 (a panic when the trimmed match is shorter); tree content is
taken as the items.  The item loop skips empty items and hits `todo!()` on
any other, so the emitted list never has children. -/
def Node.build_list (inner : Inner) (ordered : Bool) (b : List MNode) : BRes (List MNode) :=
  (match inner with
    | .none => BRes.ok ([] : List Node)
    | .text value =>
      match liMatch value with
      | some s =>
        let t := trim s
        if t.length < 3 then .crashed else .ok [Node.text (trimStart (t.drop 3))]
      | Option.none => .ok []
    | .tree value => .ok value).bind fun items =>
    if items.all (fun it => match it.inner with | Inner.none => true | _ => false) then
      BRes.ok (b ++ [MNode.list ordered (if ordered then some 1 else Option.none) false []])
    else BRes.crashed

/-- The body of `Inner::build` (parser.rs:116-128) over a given recursive
step for child nodes: empty content adds nothing, a text leaf adds an
escaped text node, a tree folds the step over the children. -/
def Inner.buildWith (step : Node → List MNode → BRes (List MNode)) :
    Inner → List MNode → BRes (List MNode)
  | .none, b => .ok b
  | .text v, b => .ok (b ++ [.text (escape_markdown v)])
  | .tree ns, b => ns.foldlM (fun acc n => step n acc) b

/-- Embeds `Node::build` (parser.rs:262-394).  The dispatch is the `match`
on the tag name; a node without a tag builds its inner content directly.
The `style`-closure family clears the parameter map and installs a single
`style` key; the generated-HTML arms render the inner content into a fresh
root through the `render` collaborator (and `build_value`'s `set_value`
discards anything a header callback wrote, spoiler summaries included). -/
def Node.build (render : List MNode → Str) : Nat → Node → List MNode → BRes (List MNode)
  | 0, _, _ => .noFuel
  | fuel+1, .mk tagO inner, b =>
    let innerB := Inner.buildWith (Node.build render fuel)
    match tagO with
    | Option.none => innerB inner b
    | some t =>
      let name := t.name
      let params := t.params
      if name = str "b" then
        (Node.build render fuel (.mk tagO inner) []).bind fun c => .ok (b ++ [.strong c])
      else if name = str "center" ∨ name = str "left" ∨ name = str "right" then
        (innerB inner []).bind fun c =>
          .ok (b ++ [.html (htmlValue (str "span")
            [(str "style", str "text-align: " ++ name ++ str ";")] (render c))])
      else if name = str "code" then
        Node.build_code tagO inner params b
      else if name = str "color" then
        match lookupP params (str "color") with
        | some cv =>
          (innerB inner []).bind fun c =>
            .ok (b ++ [.html (htmlValue (str "span")
              [(str "style", str "color: " ++ cv ++ str ";")] (render c))])
        | Option.none => innerB inner b
      else if name = str "i" then
        (innerB inner []).bind fun c => .ok (b ++ [.emphasis c])
      else if name = str "img" then
        Node.build_img tagO inner params render b
      else if name = str "ol" then
        Node.build_list inner true b
      else if name = str "pre" then
        (Node.get_inner_text tagO inner).bind fun txt => .ok (b ++ [.inlineCode txt])
      else if name = str "quote" then
        (innerB inner []).bind fun c =>
          match lookupP params (str "quote") with
          | some a => .ok (b ++ [.blockQuote c, .text (str "—" ++ escape_markdown a)])
          | Option.none => .ok (b ++ [.blockQuote c])
      else if name = str "s" then
        (Node.build render fuel (.mk tagO inner) []).bind fun c => .ok (b ++ [.delete c])
      else if name = str "size" then
        match lookupP params (str "size") with
        | some sv =>
          (innerB inner []).bind fun c =>
            .ok (b ++ [.html (htmlValue (str "span")
              [(str "style", str "font-size: " ++ sv ++ str ";")] (render c))])
        | Option.none => innerB inner b
      else if name = str "spoiler" then
        (innerB inner []).bind fun c =>
          .ok (b ++ [.html (htmlValue (str "details") [] (render c))])
      else if name = str "style" then
        let colorVal := lookupP params (str "color")
        let params1 := eraseP params (str "color")
        let sizeVal := lookupP params1 (str "size")
        let params2 := eraseP params1 (str "size")
        let ps := match colorVal, sizeVal with
          | some cv, some sv =>
            [(str "style", str "color: " ++ cv ++ str "; font-size: " ++ sv ++ str ";")]
          | some cv, Option.none => [(str "style", str "color: " ++ cv ++ str ";")]
          | Option.none, some sv => [(str "style", str "font-size: " ++ sv ++ str ";")]
          | Option.none, Option.none => params2
        (innerB inner []).bind fun c =>
          .ok (b ++ [.html (htmlValue (str "span") ps (render c))])
      else if name = str "table" ∨ name = str "td" ∨ name = str "th" ∨ name = str "tr" then
        .crashed
      else if name = str "u" then
        (innerB inner []).bind fun c =>
          .ok (b ++ [.html (htmlValue (str "u") [] (render c))])
      else if name = str "ul" ∨ name = str "list" then
        Node.build_list inner false b
      else if name = str "url" then
        Node.build_url tagO inner params (fun s => s) b
      else if name = str "youtube" then
        Node.build_url tagO inner [] (fun id => str "https://youtube.com/watch?v=" ++ id) b
      else
        .error ⟨name, t.name_range, .unknownTag⟩

/-- Embeds `Inner::build` (parser.rs:116-128), stepping into child nodes
with `Node::build` at the given fuel. -/
def Inner.build (render : List MNode → Str) (fuel : Nat) :
    Inner → List MNode → BRes (List MNode) :=
  Inner.buildWith (Node.build render fuel)

/-- The literal text stored in a fragment: the string of a `Text` or
`EndTag` fragment, and the raw parameter string of a `StartTag` (its
widest stored capture — the name is its prefix).  None of the stored
strings include the `[`, `[/`, `]` delimiters of a tag. -/
def Fragment.literalText : Fragment → Str
  | .text v _ => v
  | .startTag _ _ p _ => p
  | .endTag v _ => v

/-- The source text a fragment accounts for: its literal stored text, with
a tag fragment's stored string re-wrapped in the `[`, `[/`, `]` delimiters
of its regex match (group 0), which the stored capture groups omit. -/
def Fragment.sourceText : Fragment → Str
  | .text v _ => v
  | .startTag _ _ p _ => '[' :: (p ++ [']'])
  | .endTag v _ => '[' :: '/' :: (v ++ [']'])

/-- First input position a fragment's recorded ranges cover (for a start
tag, the shared start of its name and parameter ranges). -/
def fragLo : Fragment → Nat
  | .text _ ⟨a, _⟩ => a
  | .startTag _ ⟨na, _⟩ _ _ => na
  | .endTag _ ⟨a, _⟩ => a

/-- Last input position bound of a fragment's recorded ranges (for a start
tag, the end of its parameter range, which contains the name range). -/
def fragHi : Fragment → Nat
  | .text _ ⟨_, b⟩ => b
  | .startTag _ _ _ ⟨_, pb⟩ => pb
  | .endTag _ ⟨_, b⟩ => b

/-- Self-consistency of one fragment with the input: every recorded range
is an ordered range within the input's bounds, the stored strings equal
the input slices at their recorded ranges, and a start tag's name range
sits at the start of its parameter range. -/
def goodFrag (input : Str) : Fragment → Prop
  | .text v ⟨a, b⟩ => a ≤ b ∧ b ≤ input.length ∧ v = slice input a b
  | .startTag n ⟨na, nb⟩ p ⟨pa, pb⟩ =>
      na = pa ∧ na ≤ nb ∧ nb ≤ pb ∧ pb ≤ input.length ∧
      n = slice input na nb ∧ p = slice input pa pb
  | .endTag v ⟨a, b⟩ => a ≤ b ∧ b ≤ input.length ∧ v = slice input a b

/-- Fragment sequences that a `Node::parse` frame expecting the end-tag
name `name` consumes completely, finishing with its matching end tag:
text fragments, completely nested child frames, and finally the matching
`EndTag`.  This is the shape of the stream between a start tag and its
matching end tag. -/
inductive FrameSeq : Str → List Fragment → Prop where
  | close (name : Str) (r : Span) : FrameSeq name [.endTag name r]
  | text (v : Str) (r : Span) {name : Str} {fs : List Fragment} :
      FrameSeq name fs → FrameSeq name (.text v r :: fs)
  | nest (n : Str) (nr : Span) (p : Str) (pr : Span) {name : Str}
      {body fs : List Fragment} :
      FrameSeq n body → FrameSeq name fs →
      FrameSeq name (.startTag n nr p pr :: (body ++ fs))

/-- Fragment sequences the root frame consumes while no tag remains open:
text fragments and completely nested (opened and closed) tag frames.
After such a prefix, the root frame is again at the top with no open tag. -/
inductive RootSeq : List Fragment → Prop where
  | nil : RootSeq []
  | text (v : Str) (r : Span) {fs : List Fragment} :
      RootSeq fs → RootSeq (.text v r :: fs)
  | nest (n : Str) (nr : Span) (p : Str) (pr : Span) {body fs : List Fragment} :
      FrameSeq n body → RootSeq fs → RootSeq (.startTag n nr p pr :: (body ++ fs))

/-- The intermediate node the parser forms for the `[img]` frame of
`"[img width=\"100\" height=\"50\"]url[/img]"`: `NodeTag::from_fragment`
of the start-tag fragment the tokenizer emits for that input (see the
fragment equation in the C8 theorem), with the inner text `"url"` that
`put_text` accumulates. -/
def imgNodeA : Node :=
  .mk (some ⟨str "img", ⟨1, 4⟩, NodeTag.split (str "img width=\"100\" height=\"50\""), ⟨1, 28⟩⟩)
    (.text (str "url"))

/-- The same for `"[img=100x50]url[/img]"`. -/
def imgNodeB : Node :=
  .mk (some ⟨str "img", ⟨1, 4⟩, NodeTag.split (str "img=100x50"), ⟨1, 11⟩⟩)
    (.text (str "url"))

/-! ## Concrete claim theorems about tokenizing and parsing -/

/-- C7: tokenizing `"[tag]text[/tag]"` yields exactly three fragments —
`StartTag` with name `"tag"` (bytes 1..4) and raw parameter string `"tag"`
(bytes 1..4), `Text "text"` (bytes 5..9), `EndTag "tag"` (bytes 11..14) —
and nothing further. -/
theorem c7_fragment_boundaries :
    split_fragments (str "[tag]text[/tag]") =
      [.startTag (str "tag") ⟨1, 4⟩ (str "tag") ⟨1, 4⟩,
       .text (str "text") ⟨5, 9⟩,
       .endTag (str "tag") ⟨11, 14⟩] := by
  rfl

/-- C3, counterexample: already on the well-formed input `"[b]x[/b]"`,
concatenating the literal text of the emitted fragments (in order) gives
`"bxb"`, not the original input — the tag delimiters are in no fragment's
stored text. -/
theorem c3_counterexample :
    ((split_fragments (str "[b]x[/b]")).map Fragment.literalText).flatten ≠
      str "[b]x[/b]" := by
  decide

/-- C1: parsing `"[s]Stricken and [i]italicized[/i] text[/s]"` succeeds,
but the result is an **empty** root: `Node::parse` drops every completed
child frame (`Self::tag(tag).parse(fragments)?` keeps only the returned
stream), so no delete node with a text leaf, an emphasis node and a
trailing text leaf — indeed no child at all — reaches the root's content
list. -/
theorem c1_nested_parse_drops_children :
    parse (str "[s]Stricken and [i]italicized[/i] text[/s]") =
      .ok (.mk Option.none (.tree [])) := by
  rfl

/-- C2: parsing `"[b]bold"` returns `Ok` (with an empty root), not an
`UnclosedTag` error: the parse loop of `Node::parse` simply ends when the
fragment stream is exhausted, whether or not a tag is still open. -/
theorem c2_unclosed_at_eof_is_ok :
    parse (str "[b]bold") = .ok (.mk Option.none (.tree [])) := by
  rfl

/-- C5: parsing `"[code][b]x[/b][/code]"` succeeds with an empty root
instead of an `UnexpectedTag("b")` error: the nested `[b]` child (and then
the whole `[code]` node) is discarded by `Node::parse`, so the
text-only check of `Node::get_inner_text` never sees it. -/
theorem c5_verbatim_nesting_not_reported :
    parse (str "[code][b]x[/b][/code]") = .ok (.mk Option.none (.tree [])) := by
  rfl

/-- C4, counterexample: splitting the raw parameter string `"tag=value"`
of `[tag=value]` yields the empty mapping — in particular no unkeyed
entry `"" → "value"`.  `NodeTag::split` strips a double quote from both
ends of every value, and the unkeyed value is unquoted, so the pair
(whose key would be `"tag"`, not `""`) is dropped. -/
theorem c4_counterexample :
    NodeTag.split (str "tag=value") = [] := by
  rfl

/-- C8: the two image forms do **not** produce equivalent attribute sets.
The tokenizer gives the two start tags their raw parameter strings; after
`NodeTag::split`, the `width`/`height` form keeps its two keyed
parameters, while the unquoted `img=100x50` value is dropped entirely, so
`build_img` finds dimensions for the first node only: the first builds a
link whose title is an HTML `<img>` carrying `width`, `height` and `src`,
the second a bare image node with no dimension attributes at all. -/
theorem c8_img_dimension_divergence (render : List MNode → Str) :
    split_fragments (str "[img width=\"100\" height=\"50\"]url[/img]") =
      [.startTag (str "img") ⟨1, 4⟩ (str "img width=\"100\" height=\"50\"") ⟨1, 28⟩,
       .text (str "url") ⟨29, 32⟩, .endTag (str "img") ⟨34, 37⟩] ∧
    split_fragments (str "[img=100x50]url[/img]") =
      [.startTag (str "img") ⟨1, 4⟩ (str "img=100x50") ⟨1, 11⟩,
       .text (str "url") ⟨12, 15⟩, .endTag (str "img") ⟨17, 20⟩] ∧
    NodeTag.split (str "img width=\"100\" height=\"50\"") =
      [(str "width", str "100"), (str "height", str "50")] ∧
    NodeTag.split (str "img=100x50") = [] ∧
    Node.build render 1 imgNodeA [] =
      .ok [.link (str "url")
        (some (htmlValue (str "img")
          [(str "width", str "100"), (str "height", str "50"), (str "src", str "url")]
          (render [])))
        []] ∧
    Node.build render 1 imgNodeB [] =
      .ok [.image (str "url") [] Option.none] := by
  exact ⟨rfl, rfl, rfl, rfl, rfl, rfl⟩

/-- C9: a `color` (resp. `size`) node whose parameter map lacks the
`"color"` (resp. `"size"`) key is not an error: `Node::build` falls
through to `self.inner.build(node)`, building the inner content directly
into the surrounding builder with no wrapping span.  In particular the
empty and single-text-leaf contents that `Node::parse` produces build
successfully (the text leaf passing through as one escaped text node). -/
theorem c9_color_size_missing_param (render : List MNode → Str) (fuel : Nat)
    (name : Str) (nr pr : Span) (params : List (Str × Str)) (inner : Inner)
    (b : List MNode)
    (hname : name = str "color" ∨ name = str "size")
    (hmiss : lookupP params name = Option.none) :
    Node.build render (fuel+1) (.mk (some ⟨name, nr, params, pr⟩) inner) b =
      Inner.build render fuel inner b ∧
    (inner = .none →
      Node.build render (fuel+1) (.mk (some ⟨name, nr, params, pr⟩) inner) b = .ok b) ∧
    (∀ v, inner = .text v →
      Node.build render (fuel+1) (.mk (some ⟨name, nr, params, pr⟩) inner) b =
        .ok (b ++ [.text (escape_markdown v)])) := by
  have main : Node.build render (fuel+1) (.mk (some ⟨name, nr, params, pr⟩) inner) b =
      Inner.build render fuel inner b := by
    rcases hname with h | h <;> subst h
    · simp only [Node.build]
      rw [if_neg (by decide), if_neg (by decide), if_neg (by decide), if_pos trivial, hmiss]
      rfl
    · simp only [Node.build]
      rw [if_neg (by decide), if_neg (by decide), if_neg (by decide), if_neg (by decide),
        if_neg (by decide), if_neg (by decide), if_neg (by decide), if_neg (by decide),
        if_neg (by decide), if_neg (by decide), if_pos trivial, hmiss]
      rfl
  refine ⟨main, fun h => ?_, fun v h => ?_⟩
  · rw [main, h]; rfl
  · rw [main, h]; rfl

/-- C9, witness: a `color` node with no parameters and empty inner content
satisfies the hypotheses, and its build into an empty builder succeeds
with nothing added. -/
theorem c9_witness :
    Node.build (fun _ => []) 1 (.mk (some ⟨str "color", ⟨1, 6⟩, [], ⟨1, 6⟩⟩) .none) [] =
      Inner.build (fun _ => []) 0 .none [] ∧
    Node.build (fun _ => []) 1 (.mk (some ⟨str "color", ⟨1, 6⟩, [], ⟨1, 6⟩⟩) .none) [] =
      .ok [] :=
  ⟨(c9_color_size_missing_param (fun _ => []) 0 (str "color") ⟨1, 6⟩ ⟨1, 6⟩ [] .none []
      (Or.inl rfl) rfl).1,
   (c9_color_size_missing_param (fun _ => []) 0 (str "color") ⟨1, 6⟩ ⟨1, 6⟩ [] .none []
      (Or.inl rfl) rfl).2.1 rfl⟩

/-- C4, amended: `[tag=value]` splits to the empty mapping (the unquoted
unkeyed value is dropped); `[tag abc="val1" def="val2"]` splits to the
two-entry mapping `{abc → val1, def → val2}`; and
`[tag=value abc="val1" def="val2"]` splits to those same two keyed
entries only — no unkeyed entry is ever produced. -/
theorem c4_amended_split_params :
    NodeTag.split (str "tag=value") = [] ∧
    NodeTag.split (str "tag abc=\"val1\" def=\"val2\"") =
      [(str "abc", str "val1"), (str "def", str "val2")] ∧
    NodeTag.split (str "tag=value abc=\"val1\" def=\"val2\"") =
      [(str "abc", str "val1"), (str "def", str "val2")] := by
  exact ⟨rfl, rfl, rfl⟩

/-! ## Tokenizer match lemmas

Structural facts about a successful regex match, used by the universal
tokenizer theorems: a match starts with `[` (and `/` for an end tag),
closes with `]` right after its `param`/`endTag` group, and fits inside
the input. -/

theorem startTagMatch_shape {cs : Str} {nl pl : Nat}
    (h : startTagMatch cs = some (nl, pl)) :
    nl ≤ pl ∧ cs.drop pl = ']' :: cs.drop (pl+1) := by
  simp only [startTagMatch] at h
  split at h
  · exact absurd h (by simp)
  · split at h
    · rename_i tail heq
      rw [Option.some.injEq, Prod.mk.injEq] at h
      obtain ⟨h1, h2⟩ := h
      subst h1
      subst h2
      refine ⟨by omega, ?_⟩
      have hd : cs.drop ((cs.takeWhile isWordChar).length +
          valRun (cs.drop (cs.takeWhile isWordChar).length) +
          pairsRun (cs.drop ((cs.takeWhile isWordChar).length +
            valRun (cs.drop (cs.takeWhile isWordChar).length))) + 1) = tail := by
        have hdd := List.drop_drop 1 ((cs.takeWhile isWordChar).length +
          valRun (cs.drop (cs.takeWhile isWordChar).length) +
          pairsRun (cs.drop ((cs.takeWhile isWordChar).length +
            valRun (cs.drop (cs.takeWhile isWordChar).length)))) cs
        rw [heq] at hdd
        simpa using hdd.symm
      rw [heq, hd]
    · exact absurd h (by simp)

theorem endTagMatch_shape {cs : Str} {nl : Nat} (h : endTagMatch cs = some nl) :
    ∃ r, cs = '/' :: r ∧ nl = (r.takeWhile isWordChar).length ∧
      r.drop nl = ']' :: r.drop (nl+1) := by
  simp only [endTagMatch] at h
  split at h
  · rename_i r
    refine ⟨r, rfl, ?_⟩
    split at h
    · exact absurd h (by simp)
    · split at h
      · rename_i tail heq
        rw [Option.some.injEq] at h
        subst h
        refine ⟨rfl, ?_⟩
        have hd : r.drop ((r.takeWhile isWordChar).length + 1) = tail := by
          have hdd := List.drop_drop 1 (r.takeWhile isWordChar).length r
          rw [heq] at hdd
          simpa using hdd.symm
        rw [heq, hd]
      · exact absurd h (by simp)
  · exact absurd h (by simp)

theorem tagMatchAt_start {cs : Str} {nl pl : Nat}
    (h : tagMatchAt cs = some (.startTag nl pl)) :
    ∃ r, cs = '[' :: r ∧ nl ≤ pl ∧ r.drop pl = ']' :: r.drop (pl+1) := by
  simp only [tagMatchAt] at h
  split at h
  · rename_i r
    refine ⟨r, rfl, ?_⟩
    split at h
    · rename_i nl' pl' heq
      rw [Option.some.injEq, TagMatch.startTag.injEq] at h
      obtain ⟨h1, h2⟩ := h
      subst h1
      subst h2
      exact startTagMatch_shape heq
    · split at h
      · simp at h
      · exact absurd h (by simp)
  · exact absurd h (by simp)

theorem tagMatchAt_endT {cs : Str} {nl : Nat}
    (h : tagMatchAt cs = some (.endTag nl)) :
    ∃ r, cs = '[' :: '/' :: r ∧ r.drop nl = ']' :: r.drop (nl+1) := by
  simp only [tagMatchAt] at h
  split at h
  · rename_i r0
    split at h
    · simp at h
    · split at h
      · rename_i nl' heq
        rw [Option.some.injEq, TagMatch.endTag.injEq] at h
        subst h
        obtain ⟨r, hr, _, hdrop⟩ := endTagMatch_shape heq
        exact ⟨r, by rw [hr], hdrop⟩
      · exact absurd h (by simp)
  · exact absurd h (by simp)

/-- A match at position `q` lies inside the input and past `q`. -/
theorem tagMatchAt_bounds {input : Str} {q : Nat} {m : TagMatch}
    (h : tagMatchAt (input.drop q) = some m) :
    q < input.length ∧ q + m.len ≤ input.length := by
  have hlen : (input.drop q).length = input.length - q := List.length_drop q input
  cases m with
  | startTag nl pl =>
    obtain ⟨r, hr, _, hdrop⟩ := tagMatchAt_start h
    have h1 : input.length - q = r.length + 1 := by rw [hr] at hlen; simpa using hlen.symm
    have h2 : ¬ r.length ≤ pl := fun hle => by
      rw [List.drop_eq_nil_of_le hle] at hdrop
      exact absurd hdrop (by simp)
    have h3 : q < input.length := by
      by_contra hq
      rw [List.drop_eq_nil_of_le (by omega)] at hr
      exact absurd hr (by simp)
    exact ⟨h3, by simp only [TagMatch.len]; omega⟩
  | endTag nl =>
    obtain ⟨r, hr, hdrop⟩ := tagMatchAt_endT h
    have h1 : input.length - q = r.length + 2 := by rw [hr] at hlen; simpa using hlen.symm
    have h2 : ¬ r.length ≤ nl := fun hle => by
      rw [List.drop_eq_nil_of_le hle] at hdrop
      exact absurd hdrop (by simp)
    have h3 : q < input.length := by
      by_contra hq
      rw [List.drop_eq_nil_of_le (by omega)] at hr
      exact absurd hr (by simp)
    exact ⟨h3, by simp only [TagMatch.len]; omega⟩

/-- Correctness of the match scan: a found match is at or after the start
position and is a real match of the input there. -/
theorem findFrom_spec {input : Str} :
    ∀ (cs : Str) (q0 q : Nat) (m : TagMatch), cs = input.drop q0 →
      findFrom cs q0 = some (q, m) →
      q0 ≤ q ∧ tagMatchAt (input.drop q) = some m := by
  intro cs
  induction cs with
  | nil =>
    intro q0 q m hcs h
    simp only [findFrom, tagMatchAt] at h
    exact absurd h (by simp)
  | cons c t ih =>
    intro q0 q m hcs h
    simp only [findFrom] at h
    cases htm : tagMatchAt (c :: t) with
    | some m' =>
      rw [htm] at h
      rw [Option.some.injEq, Prod.mk.injEq] at h
      obtain ⟨h1, h2⟩ := h
      subst h1
      subst h2
      exact ⟨le_refl _, by rw [← hcs, htm]⟩
    | none =>
      rw [htm] at h
      have ht : t = input.drop (q0 + 1) := by
        have hdd := List.drop_drop 1 q0 input
        rw [← hcs] at hdd
        simpa using hdd
      obtain ⟨hq, hrest⟩ := ih (q0 + 1) q m ht h
      exact ⟨by omega, hrest⟩

theorem slice_append_drop {input : Str} {a b : Nat} (hab : a ≤ b) :
    slice input a b ++ input.drop b = input.drop a := by
  unfold slice
  have h2 : input.drop b = (input.drop a).drop (b - a) := by
    rw [List.drop_drop]
    congr 1
    omega
  rw [h2, List.take_append_drop]

theorem slice_to_len {input : Str} {a : Nat} :
    slice input a input.length = input.drop a := by
  unfold slice
  apply List.take_of_length_le
  rw [List.length_drop]

/-- Re-wrapping a tag fragment's stored text in its delimiters recovers
exactly the input text its match consumed. -/
theorem tagFragment_source {input : Str} {q : Nat} {m : TagMatch}
    (h : tagMatchAt (input.drop q) = some m) :
    Fragment.sourceText (tagFragment input q m) ++ input.drop (q + m.len) =
      input.drop q := by
  cases m with
  | startTag nl pl =>
    obtain ⟨r, hr, hnl, hdrop⟩ := tagMatchAt_start h
    have hr1 : input.drop (q + 1) = r := by
      have hdd := List.drop_drop 1 q input
      rw [hr] at hdd
      simpa using hdd.symm
    have hparam : slice input (q+1) (q+1+pl) = r.take pl := by
      unfold slice
      rw [hr1]
      congr 1
      omega
    have hrest : input.drop (q + TagMatch.len (.startTag nl pl)) = r.drop (pl+1) := by
      simp only [TagMatch.len]
      have hdd := List.drop_drop (pl+1) (q+1) input
      rw [hr1] at hdd
      rw [hdd]
      congr 1
      omega
    simp only [tagFragment, Fragment.sourceText, hparam, hrest, hr]
    simp only [List.cons_append, List.cons.injEq, true_and]
    rw [List.append_assoc, List.singleton_append, ← hdrop, List.take_append_drop]
  | endTag nl =>
    obtain ⟨r, hr, hdrop⟩ := tagMatchAt_endT h
    have hr1 : input.drop (q + 2) = r := by
      have hdd := List.drop_drop 2 q input
      rw [hr] at hdd
      simpa using hdd.symm
    have hval : slice input (q+2) (q+2+nl) = r.take nl := by
      unfold slice
      rw [hr1]
      congr 1
      omega
    have hrest : input.drop (q + TagMatch.len (.endTag nl)) = r.drop (nl+1) := by
      simp only [TagMatch.len]
      have hdd := List.drop_drop (nl+1) (q+2) input
      rw [hr1] at hdd
      rw [hdd]
      congr 1
      omega
    simp only [tagFragment, Fragment.sourceText, hval, hrest, hr]
    simp only [List.cons_append, List.cons.injEq, true_and]
    rw [List.append_assoc, List.singleton_append, ← hdrop, List.take_append_drop]

/-- The tokenizer's output accounts for the whole input: generalised over
the cursor position, with fuel strictly above the remaining length. -/
theorem fragsAux_source (input : Str) :
    ∀ (fuel pos : Nat), input.length - pos < fuel →
      ((fragsAux input fuel pos).map Fragment.sourceText).flatten = input.drop pos := by
  intro fuel
  induction fuel with
  | zero => intro pos h; omega
  | succ fuel ih =>
    intro pos h
    simp only [fragsAux]
    cases hf : findFrom (input.drop pos) pos with
    | none =>
      by_cases hp : pos < input.length
      · simp [hp, slice_to_len, Fragment.sourceText]
      · simp [hp, List.drop_eq_nil_of_le (by omega : input.length ≤ pos)]
    | some qm =>
      obtain ⟨q, m⟩ := qm
      obtain ⟨hq, htm⟩ := findFrom_spec _ pos q m rfl hf
      obtain ⟨hqlt, hqe⟩ := tagMatchAt_bounds htm
      have hml : 2 ≤ m.len := by cases m <;> (simp only [TagMatch.len]; omega)
      have hrec := ih (q + m.len) (by omega)
      have hsrc := tagFragment_source htm
      by_cases hpq : pos < q
      · simp only [if_pos hpq, List.map_cons, List.flatten_cons]
        rw [hrec, hsrc]
        exact slice_append_drop (by omega)
      · have hpq' : pos = q := by omega
        simp only [if_neg hpq, List.map_cons, List.flatten_cons]
        rw [hrec, hpq']
        exact hsrc

/-- C3, amended: for **every** input, concatenating the fragments' source
text in emission order — each `Text` fragment's literal text, each
`StartTag`'s raw parameter string re-wrapped as `[param]`, each `EndTag`'s
name re-wrapped as `[/name]` — reproduces the input exactly.  (The plain
concatenation of the stored strings omits the delimiters and does not:
see the counterexample.) -/
theorem c3_amended_round_trip (input : Str) :
    ((split_fragments input).map Fragment.sourceText).flatten = input := by
  have h := fragsAux_source input (input.length + 1) 0 (by omega)
  simpa using h

/-- A tag fragment built from a real match is self-consistent and its
ranges sit between `q+1` and the match end. -/
theorem tagFragment_good {input : Str} {q : Nat} {m : TagMatch}
    (h : tagMatchAt (input.drop q) = some m) (hle : q + m.len ≤ input.length) :
    goodFrag input (tagFragment input q m) ∧
    q + 1 ≤ fragLo (tagFragment input q m) ∧
    fragHi (tagFragment input q m) + 1 = q + m.len := by
  cases m with
  | startTag nl pl =>
    obtain ⟨r, hr, hnl, hdrop⟩ := tagMatchAt_start h
    have hml : TagMatch.len (.startTag nl pl) = pl + 2 := rfl
    rw [hml] at hle
    exact ⟨⟨rfl, by omega, by omega, by omega, rfl, rfl⟩,
      by show q + 1 ≤ q + 1; omega, by
      show q + 1 + pl + 1 = q + TagMatch.len (.startTag nl pl)
      rw [hml]
      omega⟩
  | endTag nl =>
    obtain ⟨r, hr, hdrop⟩ := tagMatchAt_endT h
    have hml : TagMatch.len (.endTag nl) = nl + 3 := rfl
    rw [hml] at hle
    exact ⟨⟨by omega, by omega, rfl⟩, by show q + 1 ≤ q + 2; omega, by
      show q + 2 + nl + 1 = q + TagMatch.len (.endTag nl)
      rw [hml]
      omega⟩

/-- Every fragment the tokenizer emits from position `pos` on is
self-consistent, starts at or after `pos`, and the emitted ranges are
pairwise disjoint in strictly increasing order. -/
theorem fragsAux_good (input : Str) :
    ∀ (fuel pos : Nat), input.length - pos < fuel →
      (∀ f ∈ fragsAux input fuel pos, goodFrag input f ∧ pos ≤ fragLo f) ∧
      (fragsAux input fuel pos).Chain' (fun f g => fragHi f < fragLo g) := by
  intro fuel
  induction fuel with
  | zero => intro pos h; omega
  | succ fuel ih =>
    intro pos h
    simp only [fragsAux]
    cases hf : findFrom (input.drop pos) pos with
    | none =>
      by_cases hp : pos < input.length
      · simp only [if_pos hp]
        refine ⟨?_, by simp⟩
        intro f hfm
        rw [List.mem_singleton] at hfm
        subst hfm
        exact ⟨⟨by omega, le_refl _, rfl⟩, le_refl _⟩
      · simp [hp]
    | some qm =>
      obtain ⟨q, m⟩ := qm
      obtain ⟨hq, htm⟩ := findFrom_spec _ pos q m rfl hf
      obtain ⟨hqlt, hqe⟩ := tagMatchAt_bounds htm
      have hml : 2 ≤ m.len := by cases m <;> (simp only [TagMatch.len]; omega)
      obtain ⟨hgood, hlo, hhi⟩ := tagFragment_good htm hqe
      obtain ⟨ihmem, ihchain⟩ := ih (q + m.len) (by omega)
      have htag_mem : ∀ f ∈ tagFragment input q m :: fragsAux input fuel (q + m.len),
          goodFrag input f ∧ pos ≤ fragLo f := by
        intro f hfm
        rcases List.mem_cons.mp hfm with hfm | hfm
        · subst hfm
          exact ⟨hgood, by omega⟩
        · obtain ⟨g1, g2⟩ := ihmem f hfm
          exact ⟨g1, by omega⟩
      have htag_chain :
          (tagFragment input q m :: fragsAux input fuel (q + m.len)).Chain'
            (fun f g => fragHi f < fragLo g) := by
        rw [List.chain'_cons']
        refine ⟨?_, ihchain⟩
        intro y hy
        have hmem : y ∈ fragsAux input fuel (q + m.len) := List.mem_of_mem_head? hy
        have := (ihmem y hmem).2
        omega
      by_cases hpq : pos < q
      · simp only [if_pos hpq]
        refine ⟨?_, ?_⟩
        · intro f hfm
          rcases List.mem_cons.mp hfm with hfm | hfm
          · subst hfm
            exact ⟨⟨by omega, by omega, rfl⟩, le_refl _⟩
          · obtain ⟨g1, g2⟩ := htag_mem f hfm
            exact ⟨g1, by omega⟩
        · rw [List.chain'_cons']
          refine ⟨?_, htag_chain⟩
          intro y hy
          rw [List.head?_cons, Option.mem_def, Option.some.injEq] at hy
          subst hy
          show q < fragLo (tagFragment input q m)
          omega
      · simp only [if_neg hpq]
        exact ⟨htag_mem, htag_chain⟩

/-- C10: for every input, every fragment the tokenizer emits is
self-consistent with it — each recorded byte range is an ordered range
within the input's bounds, each stored string (the text of a `Text` or
`EndTag` fragment, the name and raw-parameter strings of a `StartTag`)
equals the input slice at its recorded range — and successive fragments
cover disjoint ranges at strictly increasing positions. -/
theorem c10_fragment_invariants (input : Str) :
    (∀ f ∈ split_fragments input, goodFrag input f) ∧
    (split_fragments input).Chain' (fun f g => fragHi f < fragLo g) := by
  obtain ⟨h1, h2⟩ := fragsAux_good input (input.length + 1) 0 (by omega)
  exact ⟨fun f hf => (h1 f hf).1, h2⟩

/-! ## Parse lemmas for the unopened-tag claim -/

/-- A frame-closing sequence is consumed by the open frame it closes,
whatever comes after it and whatever the root and outer frames hold; the
closed frame's node is popped (and discarded). -/
theorem frameSeq_consume {name : Str} {body : List Fragment} (hb : FrameSeq name body) :
    ∀ (k : List Fragment) (rI : Inner) (fr : Frame) (frs : List Frame),
      fr.tag.name = name →
      parse_sm rI (fr :: frs) (body ++ k) = parse_sm rI frs k := by
  induction hb with
  | close nm r =>
    intro k rI fr frs hfr
    simp only [List.cons_append, List.nil_append, parse_sm]
    rw [if_pos hfr.symm]
    rfl
  | text v r hfs ih =>
    intro k rI fr frs hfr
    simp only [List.cons_append, parse_sm]
    exact ih k rI (fr.put_text v) frs hfr
  | nest n nr p pr hbody hfs ih1 ih2 =>
    intro k rI fr frs hfr
    rw [List.cons_append, List.append_assoc]
    simp only [parse_sm]
    exact (ih1 _ rI (Frame.ofStart n nr p pr) (fr :: frs) rfl).trans (ih2 k rI fr frs hfr)

/-- After a root-consumable prefix, an `EndTag` is seen by the root frame
with no tag open, raising `UnopenedTag` with the end tag's text and
range. -/
theorem rootSeq_consume {pre : List Fragment} (hp : RootSeq pre) :
    ∀ (v : Str) (r : Span) (rest : List Fragment) (rI : Inner),
      parse_sm rI [] (pre ++ .endTag v r :: rest) = .error ⟨v, r, .unopenedTag⟩ := by
  induction hp with
  | nil =>
    intro v r rest rI
    simp [parse_sm]
  | text v' r' hfs ih =>
    intro v r rest rI
    simp only [List.cons_append, parse_sm]
    exact ih v r rest _
  | nest n nr p pr hbody hfs ih =>
    intro v r rest rI
    rw [List.cons_append, List.append_assoc]
    simp only [parse_sm]
    rw [frameSeq_consume hbody _ rI (Frame.ofStart n nr p pr) [] rfl]
    exact ih v r rest rI

/-- C6: for every input whose fragment stream reaches an `EndTag` while no
tag is open at the root (a prefix of text fragments and completely closed
tag frames), parse returns an `UnopenedTag` error carrying that end tag's
stored name and its source range. -/
theorem c6_unopened_tag (input : Str) (pre : List Fragment) (v : Str) (r : Span)
    (rest : List Fragment)
    (hpre : RootSeq pre)
    (hsplit : split_fragments input = pre ++ .endTag v r :: rest) :
    parse input = .error ⟨v, r, .unopenedTag⟩ := by
  unfold parse
  rw [hsplit]
  exact rootSeq_consume hpre v r rest _

/-- C6, witness: `"text[/b]"` tokenizes to a root-consumable text fragment
followed by the end tag `b` at bytes 6..7, and parse reports exactly that
unopened tag. -/
theorem c6_witness :
    parse (str "text[/b]") = .error ⟨str "b", ⟨6, 7⟩, .unopenedTag⟩ :=
  c6_unopened_tag (str "text[/b]") [.text (str "text") ⟨0, 4⟩] (str "b") ⟨6, 7⟩ []
    (RootSeq.text _ _ RootSeq.nil) (by rfl)

end Transmark
